import Mathlib

/-!
Verification of the constraint-propagation solver core of the
AI-Minesweeper-Discovery-Framework: board with hidden/revealed/flagged
cells, neighbor-based clues, the deterministic deduction pass
(ConstraintSolver), the probabilistic fallback (RiskAssessor) and the
Beta-distribution confidence policy (BetaConfidence / ConfidencePolicy).
-/

namespace Minesweeper

/-- Modelled from the spec: the repository's Python solver core
(`board.py`, the constraint solver, the risk assessor and the
meta-cell confidence module) is not present in the source tree, which
holds only documentation, notebooks and configuration; every definition
in this file therefore follows the spec's words.  A cell is in state
Hidden, Revealed or Flagged. -/
inductive CellState where
  | hidden
  | revealed
  | flagged
deriving DecidableEq

/-- A cell position: (row, col). -/
abbrev Pos := Nat × Nat

/-- Modelled from the spec: a rectangular `rows × cols` board with an
adapter-supplied adjacency function, per-cell ground-truth `is_mine`,
an optional declared total mine count (may be unknown to the solver)
and mutable per-cell state.  The topology (rows, cols, adj, isMine,
mineTotal) is immutable; only `state` changes. -/
structure Board where
  rows : Nat
  cols : Nat
  adj : Pos → Pos → Bool
  isMine : Pos → Bool
  mineTotal : Option Nat
  state : Pos → CellState

/-- A position is on the board. -/
abbrev Board.inBounds (b : Board) (p : Pos) : Prop :=
  p.1 < b.rows ∧ p.2 < b.cols

/-- All board positions in row-major order (increasing row, then column). -/
def Board.allCells (b : Board) : List Pos :=
  (List.range b.rows).flatMap (fun r => (List.range b.cols).map (fun c => (r, c)))

/-- The adapter-supplied adjacency set of a cell, as a row-major list. -/
def Board.neighbors (b : Board) (p : Pos) : List Pos :=
  b.allCells.filter (fun q => b.adj p q)

/-- The computed clue of a cell: the count of mined neighbors. -/
def Board.clue (b : Board) (p : Pos) : Nat :=
  (b.neighbors p).countP b.isMine

/-- Overwrite the state of one cell; topology is untouched. -/
def Board.setState (b : Board) (p : Pos) (s : CellState) : Board :=
  ⟨b.rows, b.cols, b.adj, b.isMine, b.mineTotal,
    fun q => if q = p then s else b.state q⟩

/-- Hidden (unflagged) neighbors of a cell: the set `H` of the spec. -/
def Board.hiddenNbrs (b : Board) (p : Pos) : List Pos :=
  (b.neighbors p).filter (fun q => decide (b.state q = .hidden))

/-- Flagged neighbors of a cell: the set `F` of the spec. -/
def Board.flaggedNbrs (b : Board) (p : Pos) : List Pos :=
  (b.neighbors p).filter (fun q => decide (b.state q = .flagged))

/-- Number of cells currently in state Hidden (the undetermined cells). -/
def Board.stateHiddenCount (b : Board) : Nat :=
  b.allCells.countP (fun p => decide (b.state p = .hidden))

/-- Number of cells currently Flagged. -/
def Board.flaggedCount (b : Board) : Nat :=
  b.allCells.countP (fun p => decide (b.state p = .flagged))

/-- The board is solved iff every non-mine cell is Revealed. -/
def Board.isSolvedB (b : Board) : Bool :=
  b.allCells.all (fun p => b.isMine p || decide (b.state p = .revealed))

/-- The board is lost iff some mine has been revealed. -/
def Board.isLostB (b : Board) : Bool :=
  b.allCells.any (fun p => decide (b.state p = .revealed) && b.isMine p)

/-- Every Flagged cell is in fact a mine. -/
abbrev Board.flagsCorrect (b : Board) : Prop :=
  ∀ p ∈ b.allCells, b.state p = .flagged → b.isMine p = true

/-- Modelled from the spec: error taxonomy.  `invalidMove` is the spec's
`InvalidMoveError` (reveal/flag violating a state precondition);
`precondition` is the spec's `PreconditionError` (solving operation
invoked on a terminal board). -/
inductive MoveError where
  | invalidMove
  | precondition
deriving DecidableEq

/-- One step of the breadth-first flood fill, with explicit fuel (the
fuel is a proven upper bound on the number of queue pops, so the
recursion is structural and the cascade visibly terminates).  A popped
cell that is Hidden and on the board is revealed; if its computed clue
is 0 its neighbors are appended to the queue (breadth-first). -/
def floodRevealAux : Nat → Board → List Pos → Board
  | 0, b, _ => b
  | _ + 1, b, [] => b
  | fuel + 1, b, p :: rest =>
      if b.inBounds p ∧ b.state p = .hidden then
        if b.clue p = 0 then
          floodRevealAux fuel (b.setState p .revealed) (rest ++ b.neighbors p)
        else
          floodRevealAux fuel (b.setState p .revealed) rest
      else
        floodRevealAux fuel b rest

/-- Fuel that provably suffices for the flood fill to run to completion:
each pop either consumes a queue entry or reveals a Hidden cell while
pushing at most `allCells.length` entries. -/
def Board.floodFuel (b : Board) (queue : List Pos) : Nat :=
  (b.allCells.length + 1) * (b.stateHiddenCount + 1) + queue.length

/-- The cascading flood fill started from a queue of seed cells. -/
def Board.floodReveal (b : Board) (queue : List Pos) : Board :=
  floodRevealAux (b.floodFuel queue) b queue

/-- Modelled from the spec: `Board.reveal`.  Fails with
`InvalidMoveError` if the cell is off the board, Flagged or already
Revealed; revealing a mine transitions the game to the Lost state;
otherwise the cell is revealed and a zero clue cascades breadth-first
through unflagged Hidden neighbors. -/
def Board.reveal (b : Board) (p : Pos) : Except MoveError Board :=
  if b.inBounds p then
    match b.state p with
    | .flagged | .revealed => .error .invalidMove
    | .hidden =>
        if b.isMine p then .ok (b.setState p .revealed)
        else .ok (b.floodReveal [p])
  else .error .invalidMove

/-- Modelled from the spec: `Board.flag` toggles Flagged on a Hidden
cell only, failing with `InvalidMoveError` otherwise. -/
def Board.flag (b : Board) (p : Pos) : Except MoveError Board :=
  if b.inBounds p ∧ b.state p = .hidden then .ok (b.setState p .flagged)
  else .error .invalidMove

/-- Modelled from the spec: `Board.unflag` clears a Flagged cell back to
Hidden, failing with `InvalidMoveError` otherwise. -/
def Board.unflag (b : Board) (p : Pos) : Except MoveError Board :=
  if b.inBounds p ∧ b.state p = .flagged then .ok (b.setState p .hidden)
  else .error .invalidMove

/-- A scheduled solver action: reveal or flag one cell. -/
inductive Action where
  | reveal (p : Pos)
  | flag (p : Pos)
deriving DecidableEq

/-- The target cell of an action. -/
def Action.target : Action → Pos
  | .reveal p => p
  | .flag p => p

/-- Modelled from the spec: result of `ConstraintSolver.deduce`, one of
`Moves(actions)` or `Stalled`. -/
inductive DeductionResult where
  | moves (acts : List Action)
  | stalled
deriving DecidableEq

/-- The actions carried by a deduction result. -/
def DeductionResult.acts : DeductionResult → List Action
  | .moves l => l
  | .stalled => []

/-- The cell `q` is provably safe: it is Hidden and some Revealed clue
cell `p` having `q` among its Hidden unflagged neighbors satisfies
`|F| = c`. -/
abbrev SafeCell (b : Board) (q : Pos) : Prop :=
  b.state q = .hidden ∧
    ∃ p ∈ b.allCells, b.state p = .revealed ∧ b.isMine p = false ∧
      q ∈ b.hiddenNbrs p ∧ (b.flaggedNbrs p).length = b.clue p

/-- The cell `q` is provably a mine: it is Hidden and some Revealed clue
cell `p` having `q` among its Hidden unflagged neighbors satisfies
`|F| + |H| = c`. -/
abbrev MineCell (b : Board) (q : Pos) : Prop :=
  b.state q = .hidden ∧
    ∃ p ∈ b.allCells, b.state p = .revealed ∧ b.isMine p = false ∧
      q ∈ b.hiddenNbrs p ∧
      (b.flaggedNbrs p).length + (b.hiddenNbrs p).length = b.clue p

/-- Modelled from the spec: one full scan of the board.  Every Revealed
cell with clue `c` contributes Reveal for each cell of `H` when
`|F| = c` and Flag for each cell of `H` when `|F| + |H| = c`; the
scheduled actions form one batch ordered by increasing row then column
(the scan runs over `allCells`, which is row-major). -/
def scanActions (b : Board) : List Action :=
  b.allCells.filterMap (fun q =>
    if SafeCell b q then some (.reveal q)
    else if MineCell b q then some (.flag q)
    else none)

/-- Apply one scheduled action; a target whose state has already changed
within the batch is skipped (batch application never raises). -/
def applyAction (b : Board) (a : Action) : Board :=
  match a with
  | .reveal q =>
      if b.state q = .hidden then
        if b.isMine q then b.setState q .revealed
        else b.floodReveal [q]
      else b
  | .flag q =>
      if b.state q = .hidden then b.setState q .flagged else b

/-- Apply a whole batch of scheduled actions in order. -/
def applyBatch (b : Board) (acts : List Action) : Board :=
  acts.foldl applyAction b

/-- Modelled from the spec: the deduction loop.  Scan, apply the batch,
and repeat until the board is solved or a full scan yields no actions.
The fuel `stateHiddenCount + 1` is a proven bound on the number of
productive scans, making the recursion structural. -/
def deduceLoopAux : Nat → Board → List Action → Board × List Action
  | 0, b, acc => (b, acc)
  | fuel + 1, b, acc =>
      if b.isSolvedB = true then (b, acc)
      else
        match scanActions b with
        | [] => (b, acc)
        | a :: rest => deduceLoopAux fuel (applyBatch b (a :: rest)) (acc ++ a :: rest)

/-- Modelled from the spec: `ConstraintSolver.deduce`.  Raises
`PreconditionError` on an already solved or lost board; otherwise runs
the scan/apply loop to a fixed point and returns `Stalled` exactly when
the very first scan yields zero actions (never raising on stalled
input). -/
def ConstraintSolver.deduce (b : Board) :
    Except MoveError (Board × DeductionResult) :=
  if b.isSolvedB = true ∨ b.isLostB = true then .error .precondition
  else
    let res := deduceLoopAux (b.stateHiddenCount + 1) b []
    if res.2.isEmpty then .ok (res.1, .stalled) else .ok (res.1, .moves res.2)

/-- The larger of two rationals. -/
def qmax (a b : ℚ) : ℚ := if a ≤ b then b else a

/-- Clip a rational to the interval [0, 1]. -/
def clip01 (x : ℚ) : ℚ := if x < 0 then 0 else if 1 < x then 1 else x

/-- The naive local mine probability contributed by the constraint at
Revealed clue cell `p`: `(c - |F|) / |H|`, before clipping. -/
def localRisk (b : Board) (p : Pos) : ℚ :=
  ((b.clue p : ℚ) - ((b.flaggedNbrs p).length : ℚ)) /
    (((b.hiddenNbrs p).length : ℚ))

/-- The Revealed clue cells whose constraint references the hidden cell
`q`. -/
def constraintCells (b : Board) (q : Pos) : List Pos :=
  b.allCells.filter (fun p =>
    decide (b.state p = .revealed) && !b.isMine p &&
      (b.hiddenNbrs p).any (fun z => decide (z = q)))

/-- Modelled from the spec: the uniform prior assigned to hidden cells
not adjacent to any clue: `total_mines_remaining / undetermined hidden
cells` when the total mine count is known, else 1/2. -/
def uniformPrior (b : Board) : ℚ :=
  match b.mineTotal with
  | some m => ((m : ℚ) - (b.flaggedCount : ℚ)) / (b.stateHiddenCount : ℚ)
  | none => 1 / 2

/-- Modelled from the spec: the estimated mine probability of a hidden
cell: the maximum over all referencing constraints of the clipped local
probability, or the uniform prior when no constraint references it. -/
def cellRisk (b : Board) (q : Pos) : ℚ :=
  match constraintCells b q with
  | [] => uniformPrior b
  | c :: cs =>
      (cs.map (fun p => clip01 (localRisk b p))).foldl qmax
        (clip01 (localRisk b c))

/-- Modelled from the spec: `RiskAssessor.score` returns the risk map,
keyed by the Hidden unflagged cells in row-major order. -/
def RiskAssessor.score (b : Board) : List (Pos × ℚ) :=
  b.allCells.filterMap (fun q =>
    if b.state q = .hidden then some (q, cellRisk b q) else none)

/-- Look a cell up in a risk map. -/
def lookupPos : List (Pos × ℚ) → Pos → Option ℚ
  | [], _ => none
  | x :: xs, q => if x.1 = q then some x.2 else lookupPos xs q

/-- Keep the candidate with strictly smaller probability, preferring the
earlier one on ties. -/
def minStep (a y : Pos × ℚ) : Pos × ℚ := if y.2 < a.2 then y else a

/-- First element of minimal probability in a risk map (ties broken by
list position, hence by row-major order for a `score` result). -/
def selectMin (l : List (Pos × ℚ)) : Option (Pos × ℚ) :=
  match l with
  | [] => none
  | x :: xs => some (xs.foldl minStep x)

/-- Modelled from the spec: `RiskAssessor.choose_move`.  Among cells
with probability at most the threshold, return the one with lowest
probability (ties by row-major order); if none qualify, return the
single globally lowest-probability cell.  The board argument is read
only; the chosen cell is returned, never revealed. -/
def RiskAssessor.choose_move (_b : Board) (rm : List (Pos × ℚ)) (τ : ℚ) :
    Option Pos :=
  let qual := rm.filter (fun y => decide (y.2 ≤ τ))
  match selectMin (if qual.isEmpty then rm else qual) with
  | some x => some x.1
  | none => none

/-- Modelled from the spec: the `BetaConfidence` accumulator `(α, β)`
plus the manual threshold override exposed by `set_threshold` in the
meta-cell module's README. -/
structure BetaConfidence where
  alpha : ℚ
  beta : ℚ
  threshold : Option ℚ
deriving DecidableEq

/-- A fresh accumulator: `(α, β) = (1, 1)`, no threshold override. -/
def BetaConfidence.init : BetaConfidence := ⟨1, 1, none⟩

/-- Modelled from the spec: `update(was_correct)` increments `α` if
true, else `β`; nothing else changes. -/
def BetaConfidence.update (c : BetaConfidence) (wasCorrect : Bool) :
    BetaConfidence :=
  if wasCorrect then ⟨c.alpha + 1, c.beta, c.threshold⟩
  else ⟨c.alpha, c.beta + 1, c.threshold⟩

/-- The derived mean `α / (α + β)`. -/
def BetaConfidence.mean (c : BetaConfidence) : ℚ :=
  c.alpha / (c.alpha + c.beta)

/-- Modelled from the spec: `set_threshold(t)` manually overrides the
risk threshold used for move selection. -/
def BetaConfidence.set_threshold (c : BetaConfidence) (t : ℚ) :
    BetaConfidence :=
  ⟨c.alpha, c.beta, some t⟩

/-- Default `τ_max = 0.25`. -/
def tauMax : ℚ := 1 / 4

/-- Default `τ_min = 0.05`. -/
def tauMin : ℚ := 1 / 20

/-- Modelled from the spec: the linear confidence-to-threshold map
`τ = τ_max - (τ_max - τ_min) · m`. -/
def riskThreshold (m : ℚ) : ℚ := tauMax - (tauMax - tauMin) * m

/-- The risk threshold in force: the manual override when one is set,
else the value recomputed from the Beta mean. -/
def BetaConfidence.currentThreshold (c : BetaConfidence) : ℚ :=
  match c.threshold with
  | some t => t
  | none => riskThreshold c.mean

/-- Modelled from the spec: `ConfidencePolicy.choose_move`.  Fails with
`PreconditionError` on a terminal board; otherwise runs deduction to a
fixed point, and on Stalled asks the RiskAssessor for the cell with the
current risk threshold.  Returns the resulting board and the chosen
cell (`none` when deduction already solved the board). -/
def ConfidencePolicy.choose_move (conf : BetaConfidence) (b : Board) :
    Except MoveError (Board × Option Pos) :=
  if b.isSolvedB = true ∨ b.isLostB = true then .error .precondition
  else
    let res := deduceLoopAux (b.stateHiddenCount + 1) b []
    if res.1.isSolvedB = true then .ok (res.1, none)
    else
      .ok (res.1,
        RiskAssessor.choose_move res.1 (RiskAssessor.score res.1)
          conf.currentThreshold)

/-- Reachability of the flood fill: `ReachFrom b x q` holds when a path
runs from `x` to `q` whose every cell is Hidden on `b` and on the
board, and whose every cell except possibly the last has computed clue
0, each step following the adjacency relation.  This is the connected
zero-clue region of `x` together with its numbered border. -/
inductive ReachFrom (b : Board) : Pos → Pos → Prop
  | refl (p : Pos) : b.inBounds p → b.state p = .hidden → ReachFrom b p p
  | step {p q r : Pos} : b.inBounds p → b.state p = .hidden →
      b.clue p = 0 → q ∈ b.neighbors p → ReachFrom b q r → ReachFrom b p r

/-- Strict row-major order on positions. -/
def posLt (p q : Pos) : Prop :=
  p.1 < q.1 ∨ (p.1 = q.1 ∧ p.2 < q.2)

/-! ### Generic counting lemmas -/

theorem countP_lt_of_mem {α : Type} {l : List α} {f g : α → Bool} {x : α}
    (hx : x ∈ l) (hf : f x = true) (hg : g x = false)
    (himp : ∀ y ∈ l, g y = true → f y = true) :
    l.countP g < l.countP f := by
  induction l with
  | nil => cases hx
  | cons a t ih =>
      rcases List.mem_cons.1 hx with rfl | hx'
      · rw [List.countP_cons, List.countP_cons, hf, hg]
        have hle : t.countP g ≤ t.countP f :=
          List.countP_mono_left (fun y hy h => himp y (List.mem_cons_of_mem _ hy) h)
        simp
        omega
      · have ih' := ih hx' (fun y hy h => himp y (List.mem_cons_of_mem _ hy) h)
        rw [List.countP_cons, List.countP_cons]
        have hite : (if g a then 1 else 0) ≤ (if f a then 1 else 0) := by
          by_cases h : g a = true
          · rw [if_pos h, if_pos (himp a (List.mem_cons_self a t) h)]
          · simp [h]
        omega

theorem countP_rev_imp {α : Type} {l : List α} {f g : α → Bool}
    (himp : ∀ y ∈ l, g y = true → f y = true)
    (heq : l.countP f = l.countP g) :
    ∀ x ∈ l, f x = true → g x = true := by
  intro x hx hfx
  by_contra hgx
  have : l.countP g < l.countP f :=
    countP_lt_of_mem hx hfx (Bool.eq_false_iff.2 hgx) himp
  omega

theorem countP_split {α : Type} (l : List α) (f g : α → Bool) :
    l.countP f = l.countP (fun x => f x && g x) + l.countP (fun x => f x && !g x) := by
  induction l with
  | nil => rfl
  | cons a t ih =>
      rw [List.countP_cons, List.countP_cons, List.countP_cons, ih]
      cases hf : f a <;> cases hg : g a <;> simp <;> omega

/-! ### Basic board lemmas -/

@[simp] theorem state_setState (b : Board) (p : Pos) (s : CellState) (x : Pos) :
    (b.setState p s).state x = if x = p then s else b.state x := rfl

theorem mem_allCells {b : Board} {p : Pos} : p ∈ b.allCells ↔ b.inBounds p := by
  constructor
  · intro h
    simp only [Board.allCells, List.mem_flatMap, List.mem_map, List.mem_range] at h
    obtain ⟨r, hr, c, hc, rfl⟩ := h
    exact ⟨hr, hc⟩
  · intro h
    simp only [Board.allCells, List.mem_flatMap, List.mem_map, List.mem_range]
    exact ⟨p.1, h.1, p.2, h.2, rfl⟩

theorem pairwise_allCells (b : Board) : b.allCells.Pairwise posLt := by
  have main : ∀ n m : Nat,
      ((List.range n).flatMap (fun r => (List.range m).map (fun c => (r, c)))).Pairwise
        posLt := by
    intro n m
    induction n with
    | zero => simp
    | succ k ih =>
        rw [List.range_succ, List.flatMap_append]
        refine List.pairwise_append.2 ⟨ih, ?_, ?_⟩
        · simp only [List.flatMap_cons, List.flatMap_nil, List.append_nil]
          refine List.pairwise_map.2 ?_
          refine (List.pairwise_lt_range m).imp ?_
          intro c c' h
          exact Or.inr ⟨rfl, h⟩
        · intro x hx y hy
          simp only [List.mem_flatMap, List.mem_map, List.mem_range] at hx
          simp only [List.flatMap_cons, List.flatMap_nil, List.append_nil,
            List.mem_map, List.mem_range] at hy
          obtain ⟨r, hr, c, _, rfl⟩ := hx
          obtain ⟨c', _, rfl⟩ := hy
          exact Or.inl hr
  exact main b.rows b.cols

theorem mem_neighbors {b : Board} {p q : Pos} :
    q ∈ b.neighbors p ↔ q ∈ b.allCells ∧ b.adj p q = true := by
  unfold Board.neighbors
  simp [List.mem_filter]

theorem neighbors_length_le (b : Board) (p : Pos) :
    (b.neighbors p).length ≤ b.allCells.length :=
  (List.filter_sublist _).length_le

/-! ### Shape preservation -/

/-- The two boards share rows, cols, adjacency, mines and declared mine
count (only cell states may differ). -/
abbrev EqShape (b b' : Board) : Prop :=
  b'.rows = b.rows ∧ b'.cols = b.cols ∧ b'.adj = b.adj ∧
    b'.isMine = b.isMine ∧ b'.mineTotal = b.mineTotal

theorem eqShape_refl (b : Board) : EqShape b b := ⟨rfl, rfl, rfl, rfl, rfl⟩

theorem eqShape_trans {b₁ b₂ b₃ : Board} (h : EqShape b₁ b₂) (h' : EqShape b₂ b₃) :
    EqShape b₁ b₃ :=
  ⟨h'.1.trans h.1, h'.2.1.trans h.2.1, h'.2.2.1.trans h.2.2.1,
    h'.2.2.2.1.trans h.2.2.2.1, h'.2.2.2.2.trans h.2.2.2.2⟩

theorem eqShape_setState (b : Board) (p : Pos) (s : CellState) :
    EqShape b (b.setState p s) := ⟨rfl, rfl, rfl, rfl, rfl⟩

theorem allCells_of_eqShape {b b' : Board} (h : EqShape b b') :
    b'.allCells = b.allCells := by
  unfold Board.allCells
  rw [h.1, h.2.1]

theorem neighbors_of_eqShape {b b' : Board} (h : EqShape b b') (p : Pos) :
    b'.neighbors p = b.neighbors p := by
  unfold Board.neighbors
  rw [allCells_of_eqShape h, h.2.2.1]

theorem clue_of_eqShape {b b' : Board} (h : EqShape b b') (p : Pos) :
    b'.clue p = b.clue p := by
  unfold Board.clue
  rw [neighbors_of_eqShape h, h.2.2.2.1]

theorem inBounds_of_eqShape {b b' : Board} (h : EqShape b b') (p : Pos) :
    b'.inBounds p ↔ b.inBounds p := by
  unfold Board.inBounds
  rw [h.1, h.2.1]

theorem eqShape_floodAux : ∀ (n : Nat) (b : Board) (queue : List Pos),
    EqShape b (floodRevealAux n b queue) := by
  intro n
  induction n with
  | zero => intro b queue; exact eqShape_refl b
  | succ k ih =>
      intro b queue
      match queue with
      | [] => exact eqShape_refl b
      | p :: rest =>
          simp only [floodRevealAux]
          split
          · split
            · exact eqShape_trans (eqShape_setState b p .revealed) (ih _ _)
            · exact eqShape_trans (eqShape_setState b p .revealed) (ih _ _)
          · exact ih b rest

/-! ### Flood-fill frame and counting lemmas -/

theorem flood_frame : ∀ (n : Nat) (b : Board) (queue : List Pos) (x : Pos),
    (floodRevealAux n b queue).state x = b.state x ∨
      ((floodRevealAux n b queue).state x = .revealed ∧ b.state x = .hidden) := by
  intro n
  induction n with
  | zero => intro b queue x; exact Or.inl rfl
  | succ k ih =>
      intro b queue x
      match queue with
      | [] => exact Or.inl rfl
      | p :: rest =>
          simp only [floodRevealAux]
          split
          · rename_i hg
            have key : ∀ Q : List Pos,
                (floodRevealAux k (b.setState p .revealed) Q).state x = b.state x ∨
                  ((floodRevealAux k (b.setState p .revealed) Q).state x = .revealed ∧
                    b.state x = .hidden) := by
              intro Q
              rcases ih (b.setState p .revealed) Q x with h | ⟨h1, h2⟩
              · by_cases hx : x = p
                · subst hx
                  right
                  refine ⟨?_, hg.2⟩
                  rw [h]
                  simp
                · left
                  rw [h]
                  simp [hx]
              · by_cases hx : x = p
                · subst hx
                  simp at h2
                · right
                  refine ⟨h1, ?_⟩
                  rw [state_setState, if_neg hx] at h2
                  exact h2
            split
            · exact key _
            · exact key _
          · exact ih b rest x

theorem flood_keeps_revealed {n : Nat} {b : Board} {queue : List Pos} {x : Pos}
    (h : b.state x = .revealed) :
    (floodRevealAux n b queue).state x = .revealed := by
  rcases flood_frame n b queue x with heq | ⟨h1, _⟩
  · rw [heq, h]
  · exact h1

theorem flood_keeps_flagged {n : Nat} {b : Board} {queue : List Pos} {x : Pos} :
    (floodRevealAux n b queue).state x = .flagged ↔ b.state x = .flagged := by
  rcases flood_frame n b queue x with heq | ⟨h1, h2⟩
  · rw [heq]
  · rw [h1, h2]
    constructor <;> (intro h; cases h)

theorem stateHiddenCount_setState_lt {b : Board} {p : Pos}
    (hmem : p ∈ b.allCells) (hp : b.state p = .hidden) {s : CellState}
    (hs : s ≠ .hidden) :
    (b.setState p s).stateHiddenCount < b.stateHiddenCount := by
  unfold Board.stateHiddenCount
  have hcells : (b.setState p s).allCells = b.allCells := rfl
  rw [hcells]
  refine countP_lt_of_mem hmem ?_ ?_ ?_
  · simp [hp]
  · simp [hs]
  · intro y hy hgy
    simp only [state_setState, decide_eq_true_eq] at hgy
    simp only [decide_eq_true_eq]
    by_cases hyp : y = p
    · rw [if_pos hyp] at hgy
      exact absurd hgy hs
    · rw [if_neg hyp] at hgy
      exact hgy

/-! ### Reachability lemmas -/

theorem ReachFrom.hidden_head {b : Board} {x q : Pos} (h : ReachFrom b x q) :
    b.inBounds x ∧ b.state x = .hidden := by
  cases h with
  | refl _ h1 h2 => exact ⟨h1, h2⟩
  | step h1 h2 _ _ _ => exact ⟨h1, h2⟩

theorem ReachFrom.head_cases {b : Board} {x q : Pos} (h : ReachFrom b x q) :
    q = x ∨ (b.clue x = 0 ∧ ∃ y ∈ b.neighbors x, ReachFrom b y q) := by
  cases h with
  | refl _ _ _ => exact Or.inl rfl
  | step _ _ h3 h4 h5 => exact Or.inr ⟨h3, _, h4, h5⟩

theorem reachFrom_of_setState {b : Board} {p x q : Pos}
    (h : ReachFrom (b.setState p .revealed) x q) : ReachFrom b x q := by
  induction h with
  | refl z h1 h2 =>
      have hz : z ≠ p := by
        intro he
        subst he
        simp at h2
      refine ReachFrom.refl z ?_ ?_
      · exact (inBounds_of_eqShape (eqShape_setState b p .revealed) z).1 h1
      · rw [state_setState, if_neg hz] at h2
        exact h2
  | @step p₀ q₀ r₀ h1 h2 h3 h4 _h5 ih =>
      have hz : p₀ ≠ p := by
        intro he
        subst he
        simp at h2
      refine ReachFrom.step ?_ ?_ ?_ ?_ ih
      · exact (inBounds_of_eqShape (eqShape_setState b p .revealed) p₀).1 h1
      · rw [state_setState, if_neg hz] at h2
        exact h2
      · rw [clue_of_eqShape (eqShape_setState b p .revealed)] at h3
        exact h3
      · rw [neighbors_of_eqShape (eqShape_setState b p .revealed)] at h4
        exact h4

theorem reachFrom_setState_cases {b : Board} {p x q : Pos}
    (h : ReachFrom b x q) :
    q = p ∨ ReachFrom (b.setState p .revealed) x q ∨
      (b.clue p = 0 ∧ ∃ z ∈ b.neighbors p, ReachFrom (b.setState p .revealed) z q) := by
  induction h with
  | refl z h1 h2 =>
      by_cases hz : z = p
      · exact Or.inl hz
      · refine Or.inr (Or.inl (ReachFrom.refl z ?_ ?_))
        · exact (inBounds_of_eqShape (eqShape_setState b p .revealed) z).2 h1
        · rw [state_setState, if_neg hz]
          exact h2
  | @step p₀ q₀ r₀ h1 h2 h3 h4 _h5 ih =>
      rcases ih with hq | hr | hthird
      · exact Or.inl hq
      · by_cases hz : p₀ = p
        · subst hz
          exact Or.inr (Or.inr ⟨h3, q₀, h4, hr⟩)
        · refine Or.inr (Or.inl (ReachFrom.step ?_ ?_ ?_ ?_ hr))
          · exact (inBounds_of_eqShape (eqShape_setState b p .revealed) p₀).2 h1
          · rw [state_setState, if_neg hz]
            exact h2
          · rw [clue_of_eqShape (eqShape_setState b p .revealed)]
            exact h3
          · rw [neighbors_of_eqShape (eqShape_setState b p .revealed)]
            exact h4
      · exact Or.inr (Or.inr hthird)

theorem stateHiddenCount_flood_le (n : Nat) (b : Board) (queue : List Pos) :
    (floodRevealAux n b queue).stateHiddenCount ≤ b.stateHiddenCount := by
  unfold Board.stateHiddenCount
  rw [allCells_of_eqShape (eqShape_floodAux n b queue)]
  refine List.countP_mono_left ?_
  intro x _ h
  simp only [decide_eq_true_eq] at h ⊢
  rcases flood_frame n b queue x with heq | ⟨h1, _⟩
  · rw [← heq]
    exact h
  · rw [h1] at h
    cases h

/-! ### Flood-fill characterization -/

theorem flood_char : ∀ (n : Nat) (b : Board) (queue : List Pos),
    (b.allCells.length + 1) * b.stateHiddenCount + queue.length < n →
    ∀ q, ((floodRevealAux n b queue).state q = .revealed ↔
      (b.state q = .revealed ∨ ∃ x ∈ queue, ReachFrom b x q)) := by
  intro n
  induction n with
  | zero => intro b queue h; omega
  | succ k ih =>
      intro b queue hfuel q
      match queue with
      | [] =>
          simp only [floodRevealAux]
          simp
      | p :: rest =>
          simp only [floodRevealAux]
          split
          · rename_i hg
            obtain ⟨hbnd, hhid⟩ := hg
            have hmem : p ∈ b.allCells := mem_allCells.2 hbnd
            have hcount : (b.setState p .revealed).stateHiddenCount < b.stateHiddenCount :=
              stateHiddenCount_setState_lt hmem hhid (fun h => nomatch h)
            have hkey : (b.allCells.length + 1) * (b.setState p .revealed).stateHiddenCount
                + (b.allCells.length + 1) ≤ (b.allCells.length + 1) * b.stateHiddenCount := by
              have h1 : (b.setState p .revealed).stateHiddenCount + 1 ≤ b.stateHiddenCount :=
                Nat.succ_le_of_lt hcount
              calc (b.allCells.length + 1) * (b.setState p .revealed).stateHiddenCount
                  + (b.allCells.length + 1)
                  = (b.allCells.length + 1) * ((b.setState p .revealed).stateHiddenCount + 1) := by
                    ring
                _ ≤ (b.allCells.length + 1) * b.stateHiddenCount :=
                    Nat.mul_le_mul_left _ h1
            split
            · rename_i hclue
              have hfuel' : ((b.setState p .revealed).allCells.length + 1) *
                  (b.setState p .revealed).stateHiddenCount +
                  (rest ++ b.neighbors p).length < k := by
                have hn : (b.neighbors p).length ≤ b.allCells.length := neighbors_length_le b p
                have hcells : (b.setState p .revealed).allCells = b.allCells := rfl
                rw [hcells, List.length_append]
                simp only [List.length_cons] at hfuel
                omega
              rw [ih _ _ hfuel' q]
              constructor
              · rintro (hsq | ⟨x, hx, hr⟩)
                · rw [state_setState] at hsq
                  by_cases hqp : q = p
                  · refine Or.inr ⟨p, List.mem_cons_self p rest, ?_⟩
                    rw [hqp]
                    exact ReachFrom.refl p hbnd hhid
                  · rw [if_neg hqp] at hsq
                    exact Or.inl hsq
                · rcases List.mem_append.1 hx with hx' | hx'
                  · exact Or.inr ⟨x, List.mem_cons_of_mem _ hx', reachFrom_of_setState hr⟩
                  · refine Or.inr ⟨p, List.mem_cons_self p rest, ?_⟩
                    exact ReachFrom.step hbnd hhid hclue hx' (reachFrom_of_setState hr)
              · rintro (hsq | ⟨x, hx, hr⟩)
                · have hqp : q ≠ p := by
                    intro he
                    rw [he, hhid] at hsq
                    cases hsq
                  left
                  rw [state_setState, if_neg hqp]
                  exact hsq
                · rcases @reachFrom_setState_cases b p x q hr with hqp | hr' | ⟨_, z, hz, hr'⟩
                  · left
                    simp [hqp]
                  · rcases List.mem_cons.1 hx with rfl | hx'
                    · have hcontra := hr'.hidden_head.2
                      simp at hcontra
                    · exact Or.inr ⟨x, List.mem_append_left _ hx', hr'⟩
                  · exact Or.inr ⟨z, List.mem_append_right _ hz, hr'⟩
            · rename_i hclue
              have hfuel' : ((b.setState p .revealed).allCells.length + 1) *
                  (b.setState p .revealed).stateHiddenCount + rest.length < k := by
                have hcells : (b.setState p .revealed).allCells = b.allCells := rfl
                rw [hcells]
                simp only [List.length_cons] at hfuel
                omega
              rw [ih _ _ hfuel' q]
              constructor
              · rintro (hsq | ⟨x, hx, hr⟩)
                · rw [state_setState] at hsq
                  by_cases hqp : q = p
                  · refine Or.inr ⟨p, List.mem_cons_self p rest, ?_⟩
                    rw [hqp]
                    exact ReachFrom.refl p hbnd hhid
                  · rw [if_neg hqp] at hsq
                    exact Or.inl hsq
                · exact Or.inr ⟨x, List.mem_cons_of_mem _ hx, reachFrom_of_setState hr⟩
              · rintro (hsq | ⟨x, hx, hr⟩)
                · have hqp : q ≠ p := by
                    intro he
                    rw [he, hhid] at hsq
                    cases hsq
                  left
                  rw [state_setState, if_neg hqp]
                  exact hsq
                · rcases List.mem_cons.1 hx with rfl | hx'
                  · rcases hr.head_cases with hqp | ⟨hc0, _⟩
                    · left
                      simp [hqp]
                    · exact absurd hc0 hclue
                  · rcases @reachFrom_setState_cases b p x q hr with hqp | hr' | ⟨hc0, _⟩
                    · left
                      simp [hqp]
                    · exact Or.inr ⟨x, hx', hr'⟩
                    · exact absurd hc0 hclue
          · rename_i hng
            have hfuel' : (b.allCells.length + 1) * b.stateHiddenCount + rest.length < k := by
              simp only [List.length_cons] at hfuel
              omega
            rw [ih b rest hfuel' q]
            constructor
            · rintro (hsq | ⟨x, hx, hr⟩)
              · exact Or.inl hsq
              · exact Or.inr ⟨x, List.mem_cons_of_mem _ hx, hr⟩
            · rintro (hsq | ⟨x, hx, hr⟩)
              · exact Or.inl hsq
              · rcases List.mem_cons.1 hx with rfl | hx'
                · exact absurd ⟨hr.hidden_head.1, hr.hidden_head.2⟩ hng
                · exact Or.inr ⟨x, hx', hr⟩

theorem floodReveal_char (b : Board) (queue : List Pos) (q : Pos) :
    (b.floodReveal queue).state q = .revealed ↔
      (b.state q = .revealed ∨ ∃ x ∈ queue, ReachFrom b x q) := by
  apply flood_char
  unfold Board.floodFuel
  rw [Nat.mul_succ]
  omega

/-! ### Soundness of the two deduction rules -/

theorem band_split {a b : Bool} (h : (a && b) = true) : a = true ∧ b = true := by
  cases a <;> cases b <;> simp_all

theorem safeCell_not_mine {b : Board} (hf : b.flagsCorrect)
    {q : Pos} (hs : SafeCell b q) : b.isMine q = false := by
  obtain ⟨hq, p, _hp, _hrev, _hpm, hqH, hFc⟩ := hs
  have hflen : (b.flaggedNbrs p).length =
      (b.neighbors p).countP (fun z => decide (b.state z = .flagged)) :=
    (List.countP_eq_length_filter _ _).symm
  have himp : ∀ z ∈ b.neighbors p,
      decide (b.state z = .flagged) = true → b.isMine z = true := by
    intro z hz hdz
    exact hf z (mem_neighbors.1 hz).1 (of_decide_eq_true hdz)
  have heq : (b.neighbors p).countP b.isMine =
      (b.neighbors p).countP (fun z => decide (b.state z = .flagged)) := by
    have e1 : (b.neighbors p).countP (fun z => decide (b.state z = .flagged)) =
        b.clue p := hflen.symm.trans hFc
    rw [e1]
    rfl
  have hrev' := countP_rev_imp himp heq
  have hqNb : q ∈ b.neighbors p := (List.mem_filter.1 hqH).1
  by_contra hmq
  have hmq' : b.isMine q = true := by
    cases hmineq : b.isMine q
    · exact absurd hmineq hmq
    · rfl
  have hflag := of_decide_eq_true (hrev' q hqNb hmq')
  rw [hq] at hflag
  cases hflag

theorem mineCell_is_mine {b : Board} (hf : b.flagsCorrect) (hl : b.isLostB = false)
    {q : Pos} (hm : MineCell b q) : b.isMine q = true := by
  obtain ⟨hq, p, _hp, _hrev, _hpm, hqH, hFH⟩ := hm
  have hnoRevMine : ∀ z ∈ b.allCells, ¬(b.state z = .revealed ∧ b.isMine z = true) := by
    intro z hz hc
    have := List.any_eq_false.1 hl z hz
    simp only [Bool.and_eq_true, decide_eq_true_eq] at this
    exact this ⟨hc.1, hc.2⟩
  -- countP (mine && flagged) = countP flagged on the neighbors of p
  have hA : (b.neighbors p).countP
        (fun z => b.isMine z && decide (b.state z = .flagged)) =
      (b.neighbors p).countP (fun z => decide (b.state z = .flagged)) := by
    refine List.countP_congr ?_
    intro z hz
    constructor
    · intro h
      exact (band_split h).2
    · intro h
      have hmz := hf z (mem_neighbors.1 hz).1 (of_decide_eq_true h)
      simp [hmz, h]
  -- mine && not flagged coincides with mine && hidden on the neighbors of p
  have hB : (b.neighbors p).countP
        (fun z => b.isMine z && !decide (b.state z = .flagged)) =
      (b.neighbors p).countP
        (fun z => b.isMine z && decide (b.state z = .hidden)) := by
    refine List.countP_congr ?_
    intro z hz
    constructor
    · intro h
      obtain ⟨hmz, hnfl⟩ := band_split h
      have hnfl' : ¬(b.state z = .flagged) := by
        intro hc
        rw [hc] at hnfl
        simp at hnfl
      have hnrev : ¬(b.state z = .revealed) := by
        intro hc
        exact hnoRevMine z (mem_neighbors.1 hz).1 ⟨hc, hmz⟩
      have hhz : b.state z = .hidden := by
        cases hsz : b.state z
        · rfl
        · exact absurd hsz hnrev
        · exact absurd hsz hnfl'
      simp [hmz, hhz]
    · intro h
      obtain ⟨hmz, hhz⟩ := band_split h
      have hhz' := of_decide_eq_true hhz
      simp [hmz, hhz']
  have hsplit := countP_split (b.neighbors p) b.isMine
      (fun z => decide (b.state z = .flagged))
  rw [hA, hB] at hsplit
  -- lengths as counts
  have hflen : (b.flaggedNbrs p).length =
      (b.neighbors p).countP (fun z => decide (b.state z = .flagged)) :=
    (List.countP_eq_length_filter _ _).symm
  have hhlen : (b.hiddenNbrs p).length =
      (b.neighbors p).countP (fun z => decide (b.state z = .hidden)) :=
    (List.countP_eq_length_filter _ _).symm
  have hclue : b.clue p = (b.neighbors p).countP b.isMine := rfl
  rw [hflen, hhlen, hclue, hsplit] at hFH
  -- hFH : countP flagged + countP hidden = countP flagged + countP (mine && hidden)
  have heq : (b.neighbors p).countP (fun z => decide (b.state z = .hidden)) =
      (b.neighbors p).countP (fun z => b.isMine z && decide (b.state z = .hidden)) := by
    omega
  have himp : ∀ z ∈ b.neighbors p,
      (b.isMine z && decide (b.state z = .hidden)) = true →
        decide (b.state z = .hidden) = true := by
    intro z _ h
    exact (band_split h).2
  have hrev' := countP_rev_imp himp heq
  have hqNb : q ∈ b.neighbors p := (List.mem_filter.1 hqH).1
  have hand := hrev' q hqNb (by simp [hq])
  exact (band_split hand).1

/-! ### Scan membership and ordering -/

theorem reveal_mem_scanActions {b : Board} {q : Pos} :
    Action.reveal q ∈ scanActions b ↔ SafeCell b q := by
  unfold scanActions
  rw [List.mem_filterMap]
  constructor
  · rintro ⟨a, _, hfa⟩
    split at hfa
    · rename_i hsafe
      injection hfa with h1
      injection h1 with h2
      rw [← h2]
      exact hsafe
    · split at hfa
      · injection hfa with h1
        exact Action.noConfusion h1
      · exact Option.noConfusion hfa
  · intro hs
    refine ⟨q, ?_, ?_⟩
    · obtain ⟨_, p, _, _, _, hqH, _⟩ := hs
      exact (mem_neighbors.1 (List.mem_filter.1 hqH).1).1
    · rw [if_pos hs]

theorem flag_mem_scanActions {b : Board} {q : Pos} :
    Action.flag q ∈ scanActions b ↔ MineCell b q ∧ ¬SafeCell b q := by
  unfold scanActions
  rw [List.mem_filterMap]
  constructor
  · rintro ⟨a, _, hfa⟩
    split at hfa
    · injection hfa with h1
      exact Action.noConfusion h1
    · rename_i hnsafe
      split at hfa
      · rename_i hmine
        injection hfa with h1
        injection h1 with h2
        rw [← h2]
        exact ⟨hmine, hnsafe⟩
      · exact Option.noConfusion hfa
  · rintro ⟨hm, hns⟩
    refine ⟨q, ?_, ?_⟩
    · obtain ⟨_, p, _, _, _, hqH, _⟩ := hm
      exact (mem_neighbors.1 (List.mem_filter.1 hqH).1).1
    · rw [if_neg hns, if_pos hm]

theorem scanActions_target {b : Board} {a : Action} (h : a ∈ scanActions b) :
    a.target ∈ b.allCells ∧ b.state a.target = .hidden := by
  cases a with
  | reveal q =>
      have hs := reveal_mem_scanActions.1 h
      obtain ⟨hq, p, _, _, _, hqH, _⟩ := hs
      exact ⟨(mem_neighbors.1 (List.mem_filter.1 hqH).1).1, hq⟩
  | flag q =>
      have hs := (flag_mem_scanActions.1 h).1
      obtain ⟨hq, p, _, _, _, hqH, _⟩ := hs
      exact ⟨(mem_neighbors.1 (List.mem_filter.1 hqH).1).1, hq⟩

theorem scanActions_ordered (b : Board) :
    (scanActions b).Pairwise (fun a a' => posLt a.target a'.target) := by
  unfold scanActions
  refine List.pairwise_filterMap.2 ?_
  refine (pairwise_allCells b).imp ?_
  intro x y hxy a ha a' ha'
  have hx : a.target = x := by
    split at ha
    · injection ha with h1
      rw [← h1]
      rfl
    · split at ha
      · injection ha with h1
        rw [← h1]
        rfl
      · exact Option.noConfusion ha
  have hy : a'.target = y := by
    split at ha'
    · injection ha' with h1
      rw [← h1]
      rfl
    · split at ha'
      · injection ha' with h1
        rw [← h1]
        rfl
      · exact Option.noConfusion ha'
  rw [hx, hy]
  exact hxy

/-! ### Batch application lemmas -/

theorem clue_zero_nbrs_not_mine {b : Board} {p z : Pos} (hc : b.clue p = 0)
    (hz : z ∈ b.neighbors p) : b.isMine z = false := by
  unfold Board.clue at hc
  have hnot := List.countP_eq_zero.1 hc z hz
  cases h : b.isMine z
  · rfl
  · exact absurd h hnot

theorem isLostB_setState_revealed {b : Board} {p : Pos} (hl : b.isLostB = false)
    (hm : b.isMine p = false) : (b.setState p .revealed).isLostB = false := by
  unfold Board.isLostB at hl ⊢
  have hcells : (b.setState p .revealed).allCells = b.allCells := rfl
  rw [hcells]
  rw [List.any_eq_false] at hl ⊢
  intro x hx hcontra
  obtain ⟨h1, h2⟩ := band_split hcontra
  have h2' : b.isMine x = true := h2
  by_cases hxp : x = p
  · rw [hxp, hm] at h2'
    cases h2'
  · have h1' := of_decide_eq_true h1
    rw [state_setState, if_neg hxp] at h1'
    exact hl x hx (by simp [h1', h2'])

theorem isLostB_setState_flagged {b : Board} {p : Pos} (hl : b.isLostB = false) :
    (b.setState p .flagged).isLostB = false := by
  unfold Board.isLostB at hl ⊢
  have hcells : (b.setState p .flagged).allCells = b.allCells := rfl
  rw [hcells]
  rw [List.any_eq_false] at hl ⊢
  intro x hx hcontra
  obtain ⟨h1, h2⟩ := band_split hcontra
  have h2' : b.isMine x = true := h2
  have h1' := of_decide_eq_true h1
  by_cases hxp : x = p
  · rw [state_setState, if_pos hxp] at h1'
    cases h1'
  · rw [state_setState, if_neg hxp] at h1'
    exact hl x hx (by simp [h1', h2'])

theorem flagsCorrect_setState_revealed {b : Board} {p : Pos} (hf : b.flagsCorrect) :
    (b.setState p .revealed).flagsCorrect := by
  intro z hz hflag
  rw [state_setState] at hflag
  by_cases hzp : z = p
  · rw [if_pos hzp] at hflag
    cases hflag
  · rw [if_neg hzp] at hflag
    exact hf z hz hflag

theorem flagsCorrect_setState_flagged {b : Board} {p : Pos} (hf : b.flagsCorrect)
    (hm : b.isMine p = true) : (b.setState p .flagged).flagsCorrect := by
  intro z hz hflag
  rw [state_setState] at hflag
  by_cases hzp : z = p
  · rw [hzp]
    exact hm
  · rw [if_neg hzp] at hflag
    exact hf z hz hflag

theorem isLostB_flood {n : Nat} {b : Board} {queue : List Pos}
    (hq : ∀ x ∈ queue, b.isMine x = false) (hl : b.isLostB = false) :
    (floodRevealAux n b queue).isLostB = false := by
  induction n generalizing b queue with
  | zero => exact hl
  | succ k ih =>
      match queue with
      | [] => exact hl
      | p :: rest =>
          simp only [floodRevealAux]
          split
          · rename_i hg
            have hmp : b.isMine p = false := hq p (List.mem_cons_self p rest)
            have hl' := isLostB_setState_revealed hl hmp
            split
            · rename_i hclue
              refine ih ?_ hl'
              intro x hx
              rcases List.mem_append.1 hx with hx' | hx'
              · exact hq x (List.mem_cons_of_mem _ hx')
              · exact clue_zero_nbrs_not_mine hclue hx'
            · refine ih ?_ hl'
              intro x hx
              exact hq x (List.mem_cons_of_mem _ hx)
          · refine ih ?_ hl
            intro x hx
            exact hq x (List.mem_cons_of_mem _ hx)

theorem flagsCorrect_flood {n : Nat} {b : Board} {queue : List Pos}
    (hf : b.flagsCorrect) : (floodRevealAux n b queue).flagsCorrect := by
  intro z hz hflag
  have hcells := allCells_of_eqShape (eqShape_floodAux n b queue)
  rw [hcells] at hz
  have hbf := flood_keeps_flagged.1 hflag
  have hmine : (floodRevealAux n b queue).isMine = b.isMine :=
    (eqShape_floodAux n b queue).2.2.2.1
  rw [hmine]
  exact hf z hz hbf

theorem eqShape_applyAction (b : Board) (a : Action) : EqShape b (applyAction b a) := by
  cases a with
  | reveal q =>
      simp only [applyAction]
      split
      · split
        · exact eqShape_setState b q .revealed
        · exact eqShape_floodAux _ _ _
      · exact eqShape_refl b
  | flag q =>
      simp only [applyAction]
      split
      · exact eqShape_setState b q .flagged
      · exact eqShape_refl b

theorem eqShape_applyBatch (b : Board) (acts : List Action) :
    EqShape b (applyBatch b acts) := by
  induction acts generalizing b with
  | nil => exact eqShape_refl b
  | cons a t ih =>
      have h1 : applyBatch b (a :: t) = applyBatch (applyAction b a) t := rfl
      rw [h1]
      exact eqShape_trans (eqShape_applyAction b a) (ih (applyAction b a))

theorem applyAction_inv {b : Board} {a : Action} (hf : b.flagsCorrect)
    (hl : b.isLostB = false)
    (hrev : ∀ q, a = .reveal q → b.isMine q = false)
    (hflag : ∀ q, a = .flag q → b.isMine q = true) :
    (applyAction b a).flagsCorrect ∧ (applyAction b a).isLostB = false := by
  cases a with
  | reveal q =>
      have hmq := hrev q rfl
      simp only [applyAction]
      split
      · split
        · rename_i hmine
          rw [hmq] at hmine
          cases hmine
        · refine ⟨flagsCorrect_flood hf, isLostB_flood ?_ hl⟩
          intro x hx
          rw [List.mem_singleton] at hx
          rw [hx]
          exact hmq
      · exact ⟨hf, hl⟩
  | flag q =>
      have hmq := hflag q rfl
      simp only [applyAction]
      split
      · exact ⟨flagsCorrect_setState_flagged hf hmq, isLostB_setState_flagged hl⟩
      · exact ⟨hf, hl⟩

theorem applyBatch_inv {b : Board} {acts : List Action} (hf : b.flagsCorrect)
    (hl : b.isLostB = false)
    (hrev : ∀ q, Action.reveal q ∈ acts → b.isMine q = false)
    (hflag : ∀ q, Action.flag q ∈ acts → b.isMine q = true) :
    (applyBatch b acts).flagsCorrect ∧ (applyBatch b acts).isLostB = false := by
  induction acts generalizing b with
  | nil => exact ⟨hf, hl⟩
  | cons a t ih =>
      have h1 : applyBatch b (a :: t) = applyBatch (applyAction b a) t := rfl
      rw [h1]
      have hstep := applyAction_inv hf hl
        (fun q hq => hrev q (hq ▸ List.mem_cons_self a t))
        (fun q hq => hflag q (hq ▸ List.mem_cons_self a t))
      have hmine : (applyAction b a).isMine = b.isMine :=
        (eqShape_applyAction b a).2.2.2.1
      refine ih hstep.1 hstep.2 ?_ ?_
      · intro q hq
        rw [hmine]
        exact hrev q (List.mem_cons_of_mem _ hq)
      · intro q hq
        rw [hmine]
        exact hflag q (List.mem_cons_of_mem _ hq)

theorem stateHiddenCount_setState_le {b : Board} {p : Pos} {s : CellState}
    (hs : s ≠ .hidden) :
    (b.setState p s).stateHiddenCount ≤ b.stateHiddenCount := by
  unfold Board.stateHiddenCount
  have hcells : (b.setState p s).allCells = b.allCells := rfl
  rw [hcells]
  refine List.countP_mono_left ?_
  intro x _ h
  simp only [state_setState, decide_eq_true_eq] at h
  simp only [decide_eq_true_eq]
  by_cases hxp : x = p
  · rw [if_pos hxp] at h
    exact absurd h hs
  · rw [if_neg hxp] at h
    exact h

theorem stateHiddenCount_applyAction_le (b : Board) (a : Action) :
    (applyAction b a).stateHiddenCount ≤ b.stateHiddenCount := by
  cases a with
  | reveal q =>
      simp only [applyAction]
      split
      · split
        · exact @stateHiddenCount_setState_le b q .revealed (fun h => nomatch h)
        · exact stateHiddenCount_flood_le _ _ _
      · exact Nat.le_refl _
  | flag q =>
      simp only [applyAction]
      split
      · exact @stateHiddenCount_setState_le b q .flagged (fun h => nomatch h)
      · exact Nat.le_refl _

theorem stateHiddenCount_applyBatch_le (b : Board) (acts : List Action) :
    (applyBatch b acts).stateHiddenCount ≤ b.stateHiddenCount := by
  induction acts generalizing b with
  | nil => exact Nat.le_refl _
  | cons a t ih =>
      have h1 : applyBatch b (a :: t) = applyBatch (applyAction b a) t := rfl
      rw [h1]
      exact Nat.le_trans (ih (applyAction b a)) (stateHiddenCount_applyAction_le b a)

theorem stateHiddenCount_applyAction_lt {b : Board} {a : Action}
    (ha : a.target ∈ b.allCells) (hh : b.state a.target = .hidden) :
    (applyAction b a).stateHiddenCount < b.stateHiddenCount := by
  cases a with
  | reveal q =>
      have hh' : b.state q = .hidden := hh
      simp only [applyAction]
      rw [if_pos hh']
      split
      · exact stateHiddenCount_setState_lt ha hh' (fun h => nomatch h)
      · have hbnd : b.inBounds q := mem_allCells.1 ha
        have hqrev : (b.floodReveal [q]).state q = .revealed :=
          (floodReveal_char b [q] q).2
            (Or.inr ⟨q, List.mem_singleton.2 rfl, ReachFrom.refl q hbnd hh'⟩)
        unfold Board.stateHiddenCount
        have hcells := allCells_of_eqShape (eqShape_floodAux (b.floodFuel [q]) b [q])
        rw [show (b.floodReveal [q]).allCells = b.allCells from hcells]
        refine countP_lt_of_mem ha ?_ ?_ ?_
        · show decide (b.state q = .hidden) = true
          simp [hh']
        · show decide ((b.floodReveal [q]).state q = .hidden) = false
          simp [hqrev]
        · intro y _ hgy
          simp only [decide_eq_true_eq] at hgy ⊢
          rcases flood_frame (b.floodFuel [q]) b [q] y with heq | ⟨_, h2⟩
          · rw [← heq]
            exact hgy
          · exact h2
  | flag q =>
      have hh' : b.state q = .hidden := hh
      simp only [applyAction]
      rw [if_pos hh']
      exact stateHiddenCount_setState_lt ha hh' (fun h => nomatch h)

theorem stateHiddenCount_applyBatch_lt {b : Board} {a : Action} {acts : List Action}
    (ha : a.target ∈ b.allCells) (hh : b.state a.target = .hidden) :
    (applyBatch b (a :: acts)).stateHiddenCount < b.stateHiddenCount := by
  have h1 : applyBatch b (a :: acts) = applyBatch (applyAction b a) acts := rfl
  rw [h1]
  exact Nat.lt_of_le_of_lt (stateHiddenCount_applyBatch_le _ _)
    (stateHiddenCount_applyAction_lt ha hh)

/-! ### Deduction loop lemmas -/

theorem deduceLoopAux_progress : ∀ (fuel : Nat) (b : Board) (acc : List Action),
    ∃ ext, (deduceLoopAux fuel b acc).2 = acc ++ ext ∧
      (ext = [] → ((deduceLoopAux fuel b acc).1 = b ∧
        (fuel = 0 ∨ b.isSolvedB = true ∨ scanActions b = []))) := by
  intro fuel
  induction fuel with
  | zero =>
      intro b acc
      exact ⟨[], by simp [deduceLoopAux], fun _ => ⟨rfl, Or.inl rfl⟩⟩
  | succ k ih =>
      intro b acc
      simp only [deduceLoopAux]
      split
      · rename_i hs
        exact ⟨[], by simp, fun _ => ⟨rfl, Or.inr (Or.inl hs)⟩⟩
      · rename_i hs
        split
        · rename_i heq
          exact ⟨[], by simp, fun _ => ⟨rfl, Or.inr (Or.inr heq)⟩⟩
        · rename_i a rest heq
          obtain ⟨ext, h1, _⟩ := ih (applyBatch b (a :: rest)) (acc ++ a :: rest)
          refine ⟨a :: rest ++ ext, ?_, ?_⟩
          · rw [h1, List.append_assoc]
          · intro hc
            cases hc

theorem deduceLoopAux_sound : ∀ (fuel : Nat) (b : Board) (acc : List Action),
    b.flagsCorrect → b.isLostB = false →
    (deduceLoopAux fuel b acc).1.flagsCorrect ∧
      (deduceLoopAux fuel b acc).1.isLostB = false ∧
      (∀ q, Action.reveal q ∈ (deduceLoopAux fuel b acc).2 →
        (Action.reveal q ∈ acc ∨ b.isMine q = false)) := by
  intro fuel
  induction fuel with
  | zero =>
      intro b acc hf hl
      exact ⟨hf, hl, fun q hq => Or.inl hq⟩
  | succ k ih =>
      intro b acc hf hl
      simp only [deduceLoopAux]
      split
      · exact ⟨hf, hl, fun q hq => Or.inl hq⟩
      · split
        · exact ⟨hf, hl, fun q hq => Or.inl hq⟩
        · rename_i a rest heq
          have hrev : ∀ q, Action.reveal q ∈ a :: rest → b.isMine q = false := by
            intro q hq
            rw [← heq] at hq
            exact safeCell_not_mine hf (reveal_mem_scanActions.1 hq)
          have hflag : ∀ q, Action.flag q ∈ a :: rest → b.isMine q = true := by
            intro q hq
            rw [← heq] at hq
            exact mineCell_is_mine hf hl (flag_mem_scanActions.1 hq).1
          have hinv := applyBatch_inv hf hl hrev hflag
          obtain ⟨ih1, ih2, ih3⟩ :=
            ih (applyBatch b (a :: rest)) (acc ++ a :: rest) hinv.1 hinv.2
          refine ⟨ih1, ih2, ?_⟩
          intro q hq
          rcases ih3 q hq with hin | hmine
          · rcases List.mem_append.1 hin with h | h
            · exact Or.inl h
            · exact Or.inr (hrev q h)
          · right
            rw [← (eqShape_applyBatch b (a :: rest)).2.2.2.1]
            exact hmine

theorem deduceLoopAux_fixed : ∀ (fuel : Nat) (b : Board) (acc : List Action),
    b.stateHiddenCount < fuel →
    (deduceLoopAux fuel b acc).1.isSolvedB = true ∨
      scanActions (deduceLoopAux fuel b acc).1 = [] := by
  intro fuel
  induction fuel with
  | zero =>
      intro b acc h
      omega
  | succ k ih =>
      intro b acc hlt
      simp only [deduceLoopAux]
      split
      · rename_i hs
        exact Or.inl hs
      · split
        · rename_i heq
          exact Or.inr heq
        · rename_i a rest heq
          refine ih _ _ ?_
          have hmem : a.target ∈ b.allCells ∧ b.state a.target = .hidden :=
            scanActions_target (by rw [heq]; exact List.mem_cons_self a rest)
          have hlt2 : (applyBatch b (a :: rest)).stateHiddenCount < b.stateHiddenCount :=
            stateHiddenCount_applyBatch_lt hmem.1 hmem.2
          omega

theorem deduceLoopAux_of_stalled {k : Nat} {b : Board} {acc : List Action}
    (hs : b.isSolvedB = false) (hsc : scanActions b = []) :
    deduceLoopAux (k + 1) b acc = (b, acc) := by
  simp [deduceLoopAux, hs, hsc]

/-! ### Risk assessor lemmas -/

/-- The declared mine total, when known, is consistent with the flags
and undetermined cells on the board: at least the flagged count, at
most flags plus undetermined cells. -/
abbrev PriorOK (b : Board) : Prop :=
  ∀ m, b.mineTotal = some m →
    b.flaggedCount ≤ m ∧ m ≤ b.flaggedCount + b.stateHiddenCount

theorem clip01_bounds (x : ℚ) : 0 ≤ clip01 x ∧ clip01 x ≤ 1 := by
  unfold clip01
  split
  · norm_num
  · split
    · norm_num
    · rename_i h1 h2
      exact ⟨le_of_not_lt h1, le_of_not_lt h2⟩

theorem qmax_bounds {a b : ℚ} (ha : 0 ≤ a ∧ a ≤ 1) (hb : 0 ≤ b ∧ b ≤ 1) :
    0 ≤ qmax a b ∧ qmax a b ≤ 1 := by
  unfold qmax
  split
  · exact hb
  · exact ha

theorem foldl_qmax_bounds : ∀ (l : List ℚ) (x : ℚ),
    (0 ≤ x ∧ x ≤ 1) → (∀ y ∈ l, 0 ≤ y ∧ y ≤ 1) →
    0 ≤ l.foldl qmax x ∧ l.foldl qmax x ≤ 1 := by
  intro l
  induction l with
  | nil =>
      intro x hx _
      exact hx
  | cons y ys ih =>
      intro x hx hall
      rw [List.foldl_cons]
      exact ih (qmax x y) (qmax_bounds hx (hall y (List.mem_cons_self y ys)))
        (fun z hz => hall z (List.mem_cons_of_mem _ hz))

theorem mem_score {b : Board} {q : Pos} {v : ℚ} (h : (q, v) ∈ RiskAssessor.score b) :
    q ∈ b.allCells ∧ b.state q = .hidden ∧ v = cellRisk b q := by
  unfold RiskAssessor.score at h
  rw [List.mem_filterMap] at h
  obtain ⟨x, hx, hfx⟩ := h
  split at hfx
  · rename_i hhid
    injection hfx with h1
    injection h1 with ha hb
    rw [← ha]
    exact ⟨hx, hhid, hb.symm⟩
  · exact Option.noConfusion hfx

theorem stateHiddenCount_pos_of_hidden {b : Board} {q : Pos}
    (hq : q ∈ b.allCells) (hh : b.state q = .hidden) :
    1 ≤ b.stateHiddenCount := by
  unfold Board.stateHiddenCount
  have hpos : 0 < List.countP (fun p => decide (b.state p = CellState.hidden)) b.allCells :=
    List.countP_pos_iff.2 ⟨q, hq, by simp [hh]⟩
  omega

theorem uniformPrior_bounds {b : Board} (hok : PriorOK b)
    (hpos : 1 ≤ b.stateHiddenCount) :
    0 ≤ uniformPrior b ∧ uniformPrior b ≤ 1 := by
  unfold uniformPrior
  split
  · rename_i m hm
    obtain ⟨h1, h2⟩ := hok m hm
    have hden : (0 : ℚ) < (b.stateHiddenCount : ℚ) := by
      have hc : (1 : ℚ) ≤ (b.stateHiddenCount : ℚ) := by exact_mod_cast hpos
      linarith
    constructor
    · apply div_nonneg
      · have hc : (b.flaggedCount : ℚ) ≤ (m : ℚ) := by exact_mod_cast h1
        linarith
      · linarith
    · rw [div_le_one hden]
      have hc : (m : ℚ) ≤ (b.flaggedCount : ℚ) + (b.stateHiddenCount : ℚ) := by
        exact_mod_cast h2
      linarith
  · norm_num

theorem cellRisk_bounds {b : Board} {q : Pos} (hok : PriorOK b)
    (hq : q ∈ b.allCells) (hh : b.state q = .hidden) :
    0 ≤ cellRisk b q ∧ cellRisk b q ≤ 1 := by
  unfold cellRisk
  split
  · exact uniformPrior_bounds hok (stateHiddenCount_pos_of_hidden hq hh)
  · refine foldl_qmax_bounds _ _ (clip01_bounds _) ?_
    intro y hy
    rw [List.mem_map] at hy
    obtain ⟨p, _, hp⟩ := hy
    rw [← hp]
    exact clip01_bounds _

theorem score_keys_ordered (b : Board) :
    (RiskAssessor.score b).Pairwise (fun x y => posLt x.1 y.1) := by
  unfold RiskAssessor.score
  refine List.pairwise_filterMap.2 ?_
  refine (pairwise_allCells b).imp ?_
  intro x y hxy a ha a' ha'
  have hx : a.1 = x := by
    split at ha
    · injection ha with h1
      rw [← h1]
    · exact Option.noConfusion ha
  have hy : a'.1 = y := by
    split at ha'
    · injection ha' with h1
      rw [← h1]
    · exact Option.noConfusion ha'
  rw [hx, hy]
  exact hxy

theorem minStep_pos {a y : Pos × ℚ} (h : y.2 < a.2) : minStep a y = y := if_pos h

theorem minStep_neg {a y : Pos × ℚ} (h : ¬y.2 < a.2) : minStep a y = a := if_neg h

theorem foldl_min_decomp : ∀ (xs : List (Pos × ℚ)) (a : Pos × ℚ),
    ∃ l1 l2, a :: xs = l1 ++ (xs.foldl minStep a) :: l2 ∧
      (∀ y ∈ l1, (xs.foldl minStep a).2 < y.2) ∧
      (∀ y ∈ l2, (xs.foldl minStep a).2 ≤ y.2) := by
  intro xs
  induction xs with
  | nil =>
      intro a
      exact ⟨[], [], rfl, by simp, by simp⟩
  | cons y ys ih =>
      intro a
      rw [List.foldl_cons]
      by_cases hlt : y.2 < a.2
      · rw [minStep_pos hlt]
        obtain ⟨l1, l2, hdec, hl1, hl2⟩ := ih y
        refine ⟨a :: l1, l2, ?_, ?_, hl2⟩
        · rw [List.cons_append, ← hdec]
        · intro z hz
          rcases List.mem_cons.1 hz with rfl | hz'
          · have hrley : (ys.foldl minStep y).2 ≤ y.2 := by
              have hymem : y ∈ l1 ++ (ys.foldl minStep y) :: l2 := by
                rw [← hdec]
                exact List.mem_cons_self y ys
              rcases List.mem_append.1 hymem with hmm | hmm
              · exact le_of_lt (hl1 y hmm)
              · rcases List.mem_cons.1 hmm with he | h2
                · exact le_of_eq (congrArg Prod.snd he).symm
                · exact hl2 y h2
            exact lt_of_le_of_lt hrley hlt
          · exact hl1 z hz'
      · rw [minStep_neg hlt]
        push_neg at hlt
        obtain ⟨l1, l2, hdec, hl1, hl2⟩ := ih a
        cases l1 with
        | nil =>
            simp only [List.nil_append] at hdec
            injection hdec with h1 h2
            refine ⟨[], y :: l2, ?_, by simp, ?_⟩
            · simp only [List.nil_append]
              rw [← h1, ← h2]
            · intro z hz
              rcases List.mem_cons.1 hz with rfl | hz'
              · rw [← h1]
                exact hlt
              · exact hl2 z hz'
        | cons a1 l1' =>
            simp only [List.cons_append] at hdec
            injection hdec with h1 h2
            have hra : (ys.foldl minStep a).2 < a.2 := by
              have := hl1 a1 (List.mem_cons_self a1 l1')
              rw [← h1] at this
              exact this
            refine ⟨a :: y :: l1', l2, ?_, ?_, hl2⟩
            · simp only [List.cons_append]
              conv_lhs => rw [h2]
            · intro z hz
              rcases List.mem_cons.1 hz with rfl | hz'
              · exact hra
              · rcases List.mem_cons.1 hz' with rfl | hz''
                · exact lt_of_lt_of_le hra hlt
                · exact hl1 z (List.mem_cons_of_mem _ hz'')

theorem selectMin_decomp {l : List (Pos × ℚ)} {x : Pos × ℚ} (h : selectMin l = some x) :
    ∃ l1 l2, l = l1 ++ x :: l2 ∧ (∀ y ∈ l1, x.2 < y.2) ∧ (∀ y ∈ l2, x.2 ≤ y.2) := by
  match l, h with
  | a :: xs, h =>
      unfold selectMin at h
      injection h with h1
      rw [← h1]
      exact foldl_min_decomp xs a

theorem selectMin_isSome {l : List (Pos × ℚ)} (h : l ≠ []) :
    ∃ x, selectMin l = some x := by
  match l, h with
  | a :: xs, _ => exact ⟨xs.foldl minStep a, rfl⟩

/-! ### Deduce-level helper lemmas -/

theorem bool_eq_false {x : Bool} (h : ¬x = true) : x = false := by
  cases x
  · rfl
  · exact absurd rfl h

theorem deduce_ok_stalled {b b' : Board}
    (h : ConstraintSolver.deduce b = .ok (b', .stalled)) :
    b' = b ∧ scanActions b = [] ∧ b.isSolvedB = false ∧ b.isLostB = false := by
  simp only [ConstraintSolver.deduce] at h
  split at h
  · exact Except.noConfusion h
  · rename_i hterm
    have hs : b.isSolvedB = false := bool_eq_false (fun hc => hterm (Or.inl hc))
    have hl : b.isLostB = false := bool_eq_false (fun hc => hterm (Or.inr hc))
    split at h
    · rename_i hemp
      injection h with h1
      injection h1 with h1a _h1b
      obtain ⟨ext, he1, he2⟩ := deduceLoopAux_progress (b.stateHiddenCount + 1) b []
      have hnil : (deduceLoopAux (b.stateHiddenCount + 1) b []).2 = [] :=
        List.isEmpty_iff.1 hemp
      rw [hnil] at he1
      have hext : ext = [] := by simpa using he1.symm
      obtain ⟨hb, hcase⟩ := he2 hext
      rcases hcase with hf0 | hsol | hscan
      · exact absurd hf0 (Nat.succ_ne_zero _)
      · rw [hsol] at hs
        cases hs
      · exact ⟨h1a.symm.trans hb, hscan, hs, hl⟩
    · injection h with h1
      injection h1 with _h1a h1b
      exact DeductionResult.noConfusion h1b

theorem deduce_stalled_of {b : Board} (hs : b.isSolvedB = false)
    (hl : b.isLostB = false) (hscan : scanActions b = []) :
    ConstraintSolver.deduce b = .ok (b, .stalled) := by
  have hterm : ¬(b.isSolvedB = true ∨ b.isLostB = true) := by
    rintro (hc | hc)
    · rw [hs] at hc
      cases hc
    · rw [hl] at hc
      cases hc
  simp only [ConstraintSolver.deduce]
  rw [if_neg hterm, deduceLoopAux_of_stalled hs hscan]
  simp

/-! ### Concrete boards for witnesses and counterexamples -/

/-- The 8-connected grid adjacency: distinct cells whose rows and columns
differ by at most one. -/
def adj8 : Pos → Pos → Bool := fun p q =>
  decide (p ≠ q) && (p.1 ≤ q.1 + 1) && (q.1 ≤ p.1 + 1) &&
    (p.2 ≤ q.2 + 1) && (q.2 ≤ p.2 + 1)

/-- A 2×2 board, mine at (1,1); (0,0) Revealed with clue 1 and (0,1)
wrongly Flagged (not a mine).  Clues are consistent, flags are not. -/
def boardWrongFlag : Board :=
  ⟨2, 2, adj8, fun p => decide (p = (1, 1)), some 1,
    fun p =>
      if p = (0, 0) then .revealed
      else if p = (0, 1) then .flagged
      else .hidden⟩

/-- The spec's 2×2 concrete scenario: a single mine at (0,0), (1,1)
Revealed with computed clue 1, everything else Hidden. -/
def boardScenario : Board :=
  ⟨2, 2, adj8, fun p => decide (p = (0, 0)), some 1,
    fun p => if p = (1, 1) then .revealed else .hidden⟩

/-- A 2×2 board with mine at (1,1) and only (0,0) Revealed (clue 1). -/
def boardFresh : Board :=
  ⟨2, 2, adj8, fun p => decide (p = (1, 1)), some 1,
    fun p => if p = (0, 0) then .revealed else .hidden⟩

/-- A 2×2 mine-free fully Hidden board. -/
def boardZero : Board := ⟨2, 2, adj8, fun _ => false, some 0, fun _ => .hidden⟩

/-- A 1×1 solved board. -/
def boardDone : Board := ⟨1, 1, adj8, fun _ => false, some 0, fun _ => .revealed⟩

/-- A 1×2 mine-free board whose declared mine count is 0 yet one cell is
Flagged: more flags than mines. -/
def boardOverFlag : Board :=
  ⟨1, 2, adj8, fun _ => false, some 0,
    fun p => if p = (0, 0) then .flagged else .hidden⟩

/-! ### Claim theorems -/

/-- Claim C6: the risk threshold computed by ConfidencePolicy is the
linear map `τ_max - (τ_max - τ_min) · m` with defaults `τ_max = 0.25`
and `τ_min = 0.05`; it is 0.25 at mean 0, 0.15 at mean 0.5 and 0.05 at
mean 1, and it is antitone in the mean. -/
theorem threshold_mapping_spec :
    (∀ m : ℚ, riskThreshold m = tauMax - (tauMax - tauMin) * m) ∧
    tauMax = 1 / 4 ∧ tauMin = 1 / 20 ∧
    riskThreshold 0 = 1 / 4 ∧ riskThreshold (1 / 2) = 3 / 20 ∧
    riskThreshold 1 = 1 / 20 ∧
    (∀ m1 m2 : ℚ, m1 < m2 → riskThreshold m2 ≤ riskThreshold m1) := by
  refine ⟨fun m => rfl, rfl, rfl, ?_, ?_, ?_, ?_⟩
  · with_unfolding_all rfl
  · with_unfolding_all rfl
  · with_unfolding_all rfl
  · intro m1 m2 h
    unfold riskThreshold tauMax tauMin
    linarith

/-- Witness for C6: the threshold at mean 1 is at most the threshold at
mean 0. -/
theorem threshold_mapping_witness : riskThreshold 1 ≤ riskThreshold 0 :=
  threshold_mapping_spec.2.2.2.2.2.2 0 1 (by norm_num)

/-- Claim C7: BetaConfidence starts at `(α, β) = (1, 1)`;
`update(was_correct)` increments exactly `α` when correct, else exactly
`β`, changing nothing else; `mean()` is `α/(α+β)`; after 3 correct and
1 incorrect update from the initial state the mean is `4/6`. -/
theorem beta_confidence_spec :
    (BetaConfidence.init.alpha = 1 ∧ BetaConfidence.init.beta = 1 ∧
      BetaConfidence.init.threshold = none) ∧
    (∀ c : BetaConfidence,
      c.update true = ⟨c.alpha + 1, c.beta, c.threshold⟩ ∧
      c.update false = ⟨c.alpha, c.beta + 1, c.threshold⟩) ∧
    (∀ c : BetaConfidence, c.mean = c.alpha / (c.alpha + c.beta)) ∧
    ((((BetaConfidence.init.update true).update true).update true).update
      false).mean = 4 / 6 := by
  refine ⟨⟨rfl, rfl, rfl⟩, fun c => ⟨rfl, rfl⟩, fun c => rfl, ?_⟩
  with_unfolding_all rfl

/-- Claim C8: any solving operation on a terminal (Solved or Lost)
board fails with PreconditionError: both `ConfidencePolicy.choose_move`
and `ConstraintSolver.deduce` return the `precondition` error and no
move or board. -/
theorem terminal_precondition_spec :
    ∀ (conf : BetaConfidence) (b : Board),
      b.isSolvedB = true ∨ b.isLostB = true →
      ConfidencePolicy.choose_move conf b = .error .precondition ∧
      ConstraintSolver.deduce b = .error .precondition := by
  intro conf b h
  constructor
  · unfold ConfidencePolicy.choose_move
    rw [if_pos h]
  · unfold ConstraintSolver.deduce
    rw [if_pos h]

/-- Witness for C8 at a concrete solved 1×1 board. -/
theorem terminal_precondition_witness :
    (boardDone.isSolvedB = true ∨ boardDone.isLostB = true) ∧
    ConfidencePolicy.choose_move BetaConfidence.init boardDone =
      .error .precondition ∧
    ConstraintSolver.deduce boardDone = .error .precondition :=
  ⟨Or.inl (by decide),
    terminal_precondition_spec BetaConfidence.init boardDone (Or.inl (by decide))⟩

/-- Claim C9: `deduce` is idempotent at a fixed point: if it returns
Stalled then the board is unchanged and an immediate second call
returns Stalled again with no action performed. -/
theorem deduce_idempotent_spec :
    ∀ b b' : Board, ConstraintSolver.deduce b = .ok (b', .stalled) →
      b' = b ∧ ConstraintSolver.deduce b' = .ok (b', .stalled) := by
  intro b b' h
  obtain ⟨hb, hscan, hs, hl⟩ := deduce_ok_stalled h
  refine ⟨hb, ?_⟩
  rw [hb]
  exact deduce_stalled_of hs hl hscan

/-- Witness for C9 at the spec's stalled 2×2 scenario board. -/
theorem deduce_idempotent_witness :
    ConstraintSolver.deduce boardScenario = .ok (boardScenario, .stalled) ∧
      (boardScenario = boardScenario ∧
        ConstraintSolver.deduce boardScenario = .ok (boardScenario, .stalled)) :=
  ⟨rfl, deduce_idempotent_spec boardScenario boardScenario rfl⟩

/-- Claim C10: `set_threshold(t)` overrides the risk threshold used for
move selection: the stored override equals `t` and is what
ConfidencePolicy passes to the RiskAssessor on a stalled board; a later
`set_threshold` replaces it, and with no override in place the
threshold is recomputed from the Beta mean. -/
theorem set_threshold_spec :
    (∀ (c : BetaConfidence) (t : ℚ),
      (c.set_threshold t).threshold = some t ∧
      (c.set_threshold t).currentThreshold = t ∧
      (c.set_threshold t).alpha = c.alpha ∧
      (c.set_threshold t).beta = c.beta) ∧
    (∀ (c : BetaConfidence) (t t' : ℚ),
      ((c.set_threshold t).set_threshold t').currentThreshold = t') ∧
    (∀ c : BetaConfidence, c.threshold = none →
      c.currentThreshold = riskThreshold c.mean) ∧
    (∀ (conf : BetaConfidence) (t : ℚ) (b : Board),
      b.isSolvedB = false → b.isLostB = false → scanActions b = [] →
      ConfidencePolicy.choose_move (conf.set_threshold t) b =
        .ok (b, RiskAssessor.choose_move b (RiskAssessor.score b) t)) := by
  refine ⟨fun c t => ⟨rfl, rfl, rfl, rfl⟩, fun c t t' => rfl, ?_, ?_⟩
  · intro c h
    unfold BetaConfidence.currentThreshold
    rw [h]
  · intro conf t b hs hl hscan
    have hterm : ¬(b.isSolvedB = true ∨ b.isLostB = true) := by
      rintro (hc | hc)
      · rw [hs] at hc
        cases hc
      · rw [hl] at hc
        cases hc
    unfold ConfidencePolicy.choose_move
    rw [if_neg hterm, deduceLoopAux_of_stalled hs hscan]
    simp only [hs]
    rfl

/-- Witness for C10: setting the threshold to 1/10 makes the policy
pass exactly 1/10 to the RiskAssessor on the stalled scenario board. -/
theorem set_threshold_witness :
    ConfidencePolicy.choose_move (BetaConfidence.init.set_threshold (1 / 10))
        boardScenario =
      .ok (boardScenario,
        RiskAssessor.choose_move boardScenario (RiskAssessor.score boardScenario)
          (1 / 10)) :=
  set_threshold_spec.2.2.2 BetaConfidence.init (1 / 10) boardScenario
    (by decide) (by decide) (by decide)

/-- Claim C2: on every non-terminal board, a scan schedules Reveal for
exactly the cells covered by a `|F| = c` constraint and Flag for
exactly the cells covered by a `|F| + |H| = c` constraint (the flag
rule stated both raw and under correct flags), the batch is ordered by
increasing row then column, `deduce` runs the scan/apply loop to a
fixed point (solved or empty scan), returns Stalled exactly when the
first full scan yields zero actions, and returns without raising on
stalled input. -/
theorem deduce_algorithm_spec :
    ∀ b : Board, b.isSolvedB = false → b.isLostB = false →
      (∀ q, Action.reveal q ∈ scanActions b ↔ SafeCell b q) ∧
      (∀ q, Action.flag q ∈ scanActions b ↔ MineCell b q ∧ ¬SafeCell b q) ∧
      (b.flagsCorrect → ∀ q, Action.flag q ∈ scanActions b ↔ MineCell b q) ∧
      (scanActions b).Pairwise (fun a a' => posLt a.target a'.target) ∧
      (∃ b' r, ConstraintSolver.deduce b = .ok (b', r) ∧
        (b'.isSolvedB = true ∨ scanActions b' = [])) ∧
      (ConstraintSolver.deduce b = .ok (b, .stalled) ↔ scanActions b = []) := by
  intro b hs hl
  have hterm : ¬(b.isSolvedB = true ∨ b.isLostB = true) := by
    rintro (hc | hc)
    · rw [hs] at hc
      cases hc
    · rw [hl] at hc
      cases hc
  refine ⟨fun q => reveal_mem_scanActions, fun q => flag_mem_scanActions, ?_, ?_, ?_, ?_⟩
  · intro hf q
    constructor
    · intro h
      exact (flag_mem_scanActions.1 h).1
    · intro hm
      refine flag_mem_scanActions.2 ⟨hm, ?_⟩
      intro hsafe
      have h1 := safeCell_not_mine hf hsafe
      have h2 := mineCell_is_mine hf hl hm
      rw [h1] at h2
      cases h2
  · exact scanActions_ordered b
  · have hfix := deduceLoopAux_fixed (b.stateHiddenCount + 1) b []
      (Nat.lt_succ_self _)
    simp only [ConstraintSolver.deduce]
    rw [if_neg hterm]
    by_cases hemp :
        (deduceLoopAux (b.stateHiddenCount + 1) b []).2.isEmpty = true
    · rw [if_pos hemp]
      exact ⟨_, _, rfl, hfix⟩
    · rw [if_neg hemp]
      exact ⟨_, _, rfl, hfix⟩
  · constructor
    · intro h
      exact (deduce_ok_stalled h).2.1
    · intro hscan
      exact deduce_stalled_of hs hl hscan

/-- Witness for C2: on the fresh 2×2 board the Stalled characterization
holds with both sides true. -/
theorem deduce_algorithm_witness :
    ConstraintSolver.deduce boardFresh = .ok (boardFresh, .stalled) ↔
      scanActions boardFresh = [] :=
  (deduce_algorithm_spec boardFresh (by decide) (by decide)).2.2.2.2.2

/-- Counterexample to C1 as frozen: on a board whose clues are
self-consistent (the clue of the only Revealed cell equals its mined
neighbor count, and no mine is revealed) but which carries one wrong
flag, the scan schedules Reveal for the mine at (1,1) and running
deduce transitions the board to Lost. -/
theorem deduction_sound_counterexample :
    boardWrongFlag.isLostB = false ∧
    boardWrongFlag.clue (0, 0) = 1 ∧
    (boardWrongFlag.flaggedNbrs (0, 0)).length = 1 ∧
    Action.reveal (1, 1) ∈ scanActions boardWrongFlag ∧
    boardWrongFlag.isMine (1, 1) = true ∧
    (∃ b' r, ConstraintSolver.deduce boardWrongFlag = .ok (b', r) ∧
      b'.isLostB = true) := by
  refine ⟨by decide, by decide, by decide, by decide, by decide, ?_⟩
  exact ⟨_, _, rfl, by decide⟩

/-- Claim C1 (amended): on every board whose clues are self-consistent
and whose flags are all correct (every Flagged cell is a mine), every
cell deduce schedules for Reveal is not a mine and no reveal performed
by deduction transitions the game to Lost. -/
theorem deduction_sound_spec :
    ∀ b : Board, b.flagsCorrect → b.isLostB = false → b.isSolvedB = false →
      ∀ b' r, ConstraintSolver.deduce b = .ok (b', r) →
        (∀ q, Action.reveal q ∈ r.acts → b.isMine q = false) ∧
        b'.isLostB = false := by
  intro b hf hl hs b' r h
  simp only [ConstraintSolver.deduce] at h
  split at h
  · exact Except.noConfusion h
  · obtain ⟨s1, s2, s3⟩ := deduceLoopAux_sound (b.stateHiddenCount + 1) b [] hf hl
    split at h
    · injection h with h1
      injection h1 with h1a h1b
      constructor
      · intro q hq
        rw [← h1b] at hq
        cases hq
      · rw [← h1a]
        exact s2
    · injection h with h1
      injection h1 with h1a h1b
      constructor
      · intro q hq
        rw [← h1b] at hq
        rcases s3 q hq with hin | hm
        · cases hin
        · exact hm
      · rw [← h1a]
        exact s2

/-- Witness for C1 at the stalled scenario board (no flags, so all
flags are trivially correct). -/
theorem deduction_sound_witness :
    (∀ q, Action.reveal q ∈ DeductionResult.stalled.acts →
      boardScenario.isMine q = false) ∧
    boardScenario.isLostB = false :=
  deduction_sound_spec boardScenario (by decide) (by decide) (by decide)
    boardScenario .stalled rfl

/-- Claim C3: revealing a non-mine cell with computed clue 0 succeeds,
terminates (the cascade is a total function on the fuel bound), and
reveals exactly the cells already Revealed plus the connected zero-clue
region of the start cell together with its numbered border — each cell
flipped at most once, every other cell untouched. -/
theorem reveal_cascade_spec :
    ∀ (b : Board) (s : Pos), b.inBounds s → b.state s = .hidden →
      b.isMine s = false → b.clue s = 0 →
      ∃ b', b.reveal s = .ok b' ∧ EqShape b b' ∧
        (∀ q, b'.state q = .revealed ↔
          (b.state q = .revealed ∨ ReachFrom b s q)) ∧
        (∀ q, b'.state q ≠ .revealed → b'.state q = b.state q) := by
  intro b s hbnd hhid hm _hclue
  refine ⟨b.floodReveal [s], ?_, eqShape_floodAux _ _ _, ?_, ?_⟩
  · simp [Board.reveal, hbnd, hhid, hm]
  · intro q
    rw [floodReveal_char]
    simp
  · intro q hq
    rcases flood_frame (b.floodFuel [s]) b [s] q with heq | ⟨h1, _⟩
    · exact heq
    · exact absurd h1 hq

/-- Witness for C3: revealing (0,0) on the mine-free 2×2 board. -/
theorem reveal_cascade_witness :
    ∃ b', boardZero.reveal (0, 0) = .ok b' ∧ EqShape boardZero b' ∧
      (∀ q, b'.state q = .revealed ↔
        (boardZero.state q = .revealed ∨ ReachFrom boardZero (0, 0) q)) ∧
      (∀ q, b'.state q ≠ .revealed → b'.state q = boardZero.state q) :=
  reveal_cascade_spec boardZero (0, 0) (by decide) (by decide) (by decide)
    (by decide)

/-- Counterexample to C4 as frozen: on the spec's own 2×2 scenario the
risk of (0,1) is 1/3, not 1/2 (the hidden mine cell (0,0) also counts
toward `|H|`, so `|H| = 3`); and on a board with more flags than the
declared mine count the uniform prior is −1, outside [0,1]. -/
theorem risk_map_counterexample :
    lookupPos (RiskAssessor.score boardScenario) (0, 1) = some (1 / 3) ∧
    ¬((1 : ℚ) / 3 = 1 / 2) ∧
    lookupPos (RiskAssessor.score boardOverFlag) (0, 1) = some (-1) ∧
    ¬(0 ≤ (-1 : ℚ)) := by
  refine ⟨?_, by norm_num, ?_, by norm_num⟩
  · with_unfolding_all rfl
  · with_unfolding_all rfl

/-- Claim C4 (amended): every risk-map value is the maximum over the
referencing constraints of the clipped local probability, or the
uniform prior for unconstrained cells; all values lie in [0,1] whenever
the declared remaining mine count is between 0 and the number of
undetermined hidden cells; and on the spec's 2×2 scenario both (0,1)
and (1,0) receive exactly 1/3. -/
theorem risk_map_spec :
    (∀ (b : Board) (q : Pos) (v : ℚ), PriorOK b →
      (q, v) ∈ RiskAssessor.score b → 0 ≤ v ∧ v ≤ 1) ∧
    lookupPos (RiskAssessor.score boardScenario) (0, 1) = some (1 / 3) ∧
    lookupPos (RiskAssessor.score boardScenario) (1, 0) = some (1 / 3) := by
  refine ⟨?_, ?_, ?_⟩
  · intro b q v hok hmem
    obtain ⟨hq, hh, hv⟩ := mem_score hmem
    rw [hv]
    exact cellRisk_bounds hok hq hh
  · with_unfolding_all rfl
  · with_unfolding_all rfl

/-- Witness for C4: the bounds applied to the (0,1) entry of the
scenario board's risk map. -/
theorem risk_map_witness : 0 ≤ (1 : ℚ) / 3 ∧ (1 : ℚ) / 3 ≤ 1 := by
  have hok : PriorOK boardScenario := by
    intro m hm
    injection hm with hm1
    rw [← hm1]
    decide
  exact risk_map_spec.1 boardScenario (0, 1) (1 / 3) hok
    (by with_unfolding_all decide)

/-- Claim C5: among risk-map cells with probability at most the
threshold, `choose_move` returns the one of lowest probability, ties
broken by list position; when none qualify it returns the single
globally lowest-probability entry; and a `score` risk map lists its
cells in strictly increasing row-major order, so the tie-break is
row-major.  The board argument is only read; the cell is returned, not
revealed. -/
theorem choose_move_spec :
    (∀ (b : Board) (rm : List (Pos × ℚ)) (τ : ℚ), rm ≠ [] →
      ∃ x : Pos × ℚ, RiskAssessor.choose_move b rm τ = some x.1 ∧
        ((rm.filter (fun y => decide (y.2 ≤ τ)) ≠ [] ∧ x.2 ≤ τ ∧
            ∃ l1 l2, rm.filter (fun y => decide (y.2 ≤ τ)) = l1 ++ x :: l2 ∧
              (∀ y ∈ l1, x.2 < y.2) ∧ (∀ y ∈ l2, x.2 ≤ y.2)) ∨
          (rm.filter (fun y => decide (y.2 ≤ τ)) = [] ∧
            ∃ l1 l2, rm = l1 ++ x :: l2 ∧
              (∀ y ∈ l1, x.2 < y.2) ∧ (∀ y ∈ l2, x.2 ≤ y.2)))) ∧
    (∀ b : Board, (RiskAssessor.score b).Pairwise (fun x y => posLt x.1 y.1)) := by
  constructor
  · intro b rm τ hne
    simp only [RiskAssessor.choose_move]
    by_cases hq : (rm.filter (fun y => decide (y.2 ≤ τ))).isEmpty = true
    · obtain ⟨x, hx⟩ := selectMin_isSome hne
      refine ⟨x, ?_, Or.inr ⟨List.isEmpty_iff.1 hq, selectMin_decomp hx⟩⟩
      rw [if_pos hq, hx]
    · have hqne : rm.filter (fun y => decide (y.2 ≤ τ)) ≠ [] :=
        List.isEmpty_eq_false.1 (bool_eq_false hq)
      obtain ⟨x, hx⟩ := selectMin_isSome hqne
      have hdec := selectMin_decomp hx
      have hle : x.2 ≤ τ := by
        obtain ⟨l1, l2, hfeq, _, _⟩ := hdec
        have hxmem : x ∈ rm.filter (fun y => decide (y.2 ≤ τ)) := by
          rw [hfeq]
          exact List.mem_append_right _ (List.mem_cons_self x l2)
        exact of_decide_eq_true (List.mem_filter.1 hxmem).2
      refine ⟨x, ?_, Or.inl ⟨hqne, hle, hdec⟩⟩
      rw [if_neg hq, hx]
  · exact score_keys_ordered

/-- Witness for C5 on a one-cell risk map. -/
theorem choose_move_witness :
    ∃ x : Pos × ℚ,
      RiskAssessor.choose_move boardScenario [((0, 0), 1 / 2)] (1 / 4) =
        some x.1 ∧
      (([((0, 0), (1 : ℚ) / 2)].filter (fun y => decide (y.2 ≤ 1 / 4)) ≠ [] ∧
          x.2 ≤ 1 / 4 ∧
          ∃ l1 l2,
            [((0, 0), (1 : ℚ) / 2)].filter (fun y => decide (y.2 ≤ 1 / 4)) =
              l1 ++ x :: l2 ∧
            (∀ y ∈ l1, x.2 < y.2) ∧ (∀ y ∈ l2, x.2 ≤ y.2)) ∨
        ([((0, 0), (1 : ℚ) / 2)].filter (fun y => decide (y.2 ≤ 1 / 4)) = [] ∧
          ∃ l1 l2, [((0, 0), (1 : ℚ) / 2)] = l1 ++ x :: l2 ∧
            (∀ y ∈ l1, x.2 < y.2) ∧ (∀ y ∈ l2, x.2 ≤ y.2))) :=
  choose_move_spec.1 boardScenario [((0, 0), 1 / 2)] (1 / 4) (by decide)

end Minesweeper
